import Mathlib

/-!
Verification of the LoopBuilder core: a shallow embedding of
`loopbuilder/convert.py` (`extract_segment_from_mmcif`, `join_segments`),
`loopbuilder/build.py` (the `Builder.build` control flow) and
`loopbuilder/score.py` (evaluator configuration and scorer error handling).

Python text lines are modelled as `List Char` (one line, without the
trailing newline); `str.split()` is modelled by `lineWords` (splitting on
runs of spaces, the whitespace occurring inside these lines), `int(...)`
applied to one token by `parseInt?`, and raised exceptions by
`Except.error` carrying the exception's name.
-/

namespace LoopBuilder

/-- One text line of a CIF file, without its trailing newline. -/
abbrev Line := List Char

instance {ε α : Type} [DecidableEq ε] [DecidableEq α] : DecidableEq (Except ε α) := fun x y =>
  match x, y with
  | .ok a, .ok b =>
    if h : a = b then isTrue (by rw [h]) else isFalse (fun he => h (Except.ok.inj he))
  | .error a, .error b =>
    if h : a = b then isTrue (by rw [h]) else isFalse (fun he => h (Except.error.inj he))
  | .ok _, .error _ => isFalse (fun he => Except.noConfusion he)
  | .error _, .ok _ => isFalse (fun he => Except.noConfusion he)

/-- Model of Python `line.startswith("ATOM")` from `join_segments`. -/
def isAtomLine : Line → Bool
  | 'A' :: 'T' :: 'O' :: 'M' :: _ => true
  | _ => false

/-- Model of Python `line.split()`: split a line into its
whitespace-delimited tokens, dropping all the whitespace. A non-space
character is prepended to the first token of the remainder's split when
the remainder starts with a non-space character, and starts a fresh token
otherwise. -/
def lineWords : List Char → List (List Char)
  | [] => []
  | c :: cs =>
    if c = ' ' then lineWords cs
    else
      match cs with
      | [] => [[c]]
      | d :: _ =>
        if d = ' ' then [c] :: lineWords cs
        else
          match lineWords cs with
          | [] => [[c]]
          | w :: ws => (c :: w) :: ws

/-- Numeric value of a decimal digit character. -/
def digitVal (c : Char) : Nat := c.toNat - Char.toNat '0'

/-- Parse a nonempty all-digit token as a natural number. -/
def parseDigits? (cs : List Char) : Option Nat :=
  if cs.isEmpty then none
  else if cs.all (fun c => c.isDigit) then
    some (cs.foldl (fun a c => 10 * a + digitVal c) 0)
  else none

/-- Model of Python `int(token)` on a whitespace-free token: an optional
sign followed by at least one decimal digit; anything else raises
`ValueError`, modelled as `none`. -/
def parseInt? : List Char → Option Int
  | '-' :: cs => (parseDigits? cs).map (fun n => -(n : Int))
  | '+' :: cs => (parseDigits? cs).map (fun n => (n : Int))
  | cs => (parseDigits? cs).map (fun n => (n : Int))

/-- Model of Python `int(line.split()[-1])`: the trailing
whitespace-delimited token of a line, parsed as an integer (`none` models
the `IndexError` on a blank line as well as the `ValueError` on a
non-numeric token). -/
def modelNum? (l : Line) : Option Int := (lineWords l).getLast?.bind parseInt?

/-- Decimal rendering of an integer, as used by the f-string
`f" {model_count + prev_model_count}"` in `join_segments`. -/
def strOfInt (n : Int) : List Char := (toString n).toList

/-- Model of Python `" ".join(words)`. -/
def joinSpace : List (List Char) → List Char
  | [] => []
  | [w] => w
  | w :: ws => w ++ ' ' :: joinSpace ws

/-- The output line `join_segments` writes for one copied atom row:
`" ".join(line.split()[:-1]) + f" {n}"` (newline dropped in this model),
where `n` is the renumbered trailing model-number field. -/
def writeAtomLine (l : Line) (n : Int) : Line :=
  joinSpace (lineWords l).dropLast ++ ' ' :: strOfInt n

def errIndex : String := "IndexError"

def errName : String := "NameError"

def errValue : String := "ValueError"

/-- State threaded through `join_segments` while the subsequent input
files are copied: the output lines written so far (`out`), the Python
variable `prev_model_count` (`off`) and the Python variable `model_count`
(`mc`; `none` models the variable not being bound yet, so that using it
raises `NameError`). -/
structure JoinState where
  out : List Line
  off : Int
  mc : Option Int
deriving DecidableEq

/-- The inner `for line in fpi` loop of `join_segments` over one
subsequent input file: atom rows are renumbered by adding
`prev_model_count` and written out, every other line is skipped, and
`model_count` is left holding the last atom row's parsed model number. -/
def joinFileLines (off : Int) : List Line → Option Int → Except String (List Line × Option Int)
  | [], mc => .ok ([], mc)
  | l :: ls, mc =>
    if isAtomLine l then
      match modelNum? l with
      | none => .error errValue
      | some m =>
        match joinFileLines off ls (some m) with
        | .error e => .error e
        | .ok (rest, mcEnd) => .ok (writeAtomLine l (m + off) :: rest, mcEnd)
    else joinFileLines off ls mc

/-- Processing of one subsequent input file by `join_segments`: copy the
renumbered atom rows, then execute
`prev_model_count = model_count + prev_model_count`. -/
def joinFile (st : JoinState) (f : List Line) : Except String JoinState :=
  match joinFileLines st.off f st.mc with
  | .error e => .error e
  | .ok (outAdd, mcEnd) =>
    match mcEnd with
    | none => .error errName
    | some m => .ok ⟨st.out ++ outAdd, m + st.off, some m⟩

/-- The `for input_file in input_files[1:]` loop of `join_segments`. -/
def joinFilesGo (st : JoinState) : List (List Line) → Except String JoinState
  | [] => .ok st
  | f :: fs =>
    match joinFile st f with
    | .error e => .error e
    | .ok st' => joinFilesGo st' fs

/-- Model of `join_segments` from `loopbuilder/convert.py`: the first
input file is copied verbatim, `prev_model_count` is initialised from the
trailing token of its last line, and every subsequent file contributes
only its renumbered atom rows. The result is the list of output lines. -/
def joinSegments (files : List (List Line)) : Except String (List Line) :=
  match files with
  | [] => .error errIndex
  | f1 :: rest =>
    match f1.getLast? with
    | none => .error errName
    | some lastLine =>
      match modelNum? lastLine with
      | none => .error errValue
      | some p =>
        match joinFilesGo ⟨f1, p, none⟩ rest with
        | .error e => .error e
        | .ok st => .ok st.out

/-- The lines contributed to the output by one subsequent input file,
given the value `off` of `prev_model_count` while it is copied: its atom
rows, each with the trailing model-number field replaced by its original
value plus `off`. -/
def renumberFile (off : Int) (f : List Line) : List Line :=
  (f.filter isAtomLine).map (fun l => writeAtomLine l ((modelNum? l).getD 0 + off))

/-- Value of the Python variable `model_count` after one subsequent file
is copied: the parsed model number of the file's last atom row, or the
previous value if the file has no atom row. -/
def mcNext (f : List Line) (mc : Option Int) : Option Int :=
  match (f.filter isAtomLine).getLast? with
  | some l => modelNum? l
  | none => mc

/-- The successive values of `prev_model_count` under which each
subsequent file is copied. -/
def offsGo (off : Int) (mc : Option Int) : List (List Line) → List Int
  | [] => []
  | f :: fs => off :: offsGo ((mcNext f mc).getD 0 + off) (mcNext f mc) fs

/-- The offset applied to each subsequent input file of `join_segments`,
in file order. -/
def joinOffsets (files : List (List Line)) : List Int :=
  match files with
  | [] => []
  | f1 :: rest => offsGo ((f1.getLast?.bind modelNum?).getD 0) none rest

/-- The parsed model number of a file's last atom row (`0` if there is
none or it does not parse). -/
def lastAtomNum (f : List Line) : Int :=
  ((f.filter isAtomLine).getLast?.bind modelNum?).getD 0

/-- Offset recurrence actually implemented by `join_segments` when every
subsequent file has at least one atom row: each file is copied under the
current offset, and afterwards the offset grows by the model number of
that file's last atom row. -/
def simpleOffs (p : Int) : List (List Line) → List Int
  | [] => []
  | f :: fs => p :: simpleOffs (lastAtomNum f + p) fs

/-- The model numbers written to the output for one subsequent file
copied under offset `off`. -/
def blockNums (off : Int) (f : List Line) : List Int :=
  (f.filter isAtomLine).map (fun l => (modelNum? l).getD 0 + off)

/-- The model numbers of the first file's atom rows (copied verbatim). -/
def firstBlockNums (f : List Line) : List Int :=
  (f.filter isAtomLine).map (fun l => (modelNum? l).getD 0)

/-- The output model numbers grouped by source file: the first file's
rows keep their numbers, each subsequent file's rows are shifted by its
offset. -/
def numberBlocks (p : Int) (f1 : List Line) (rest : List (List Line)) : List (List Int) :=
  firstBlockNums f1 :: List.zipWith blockNums (simpleOffs p rest) rest

/-- Every model number of the first block is strictly below every model
number of the second block. -/
def blockLt (b1 b2 : List Int) : Prop := ∀ a ∈ b1, ∀ b ∈ b2, a < b

/-- The maximum model number among a file's atom rows (`0` if none). -/
def maxAtomNum (f : List Line) : Int :=
  ((f.filter isAtomLine).filterMap modelNum?).foldl max 0

/-- Modelled from the spec: the consolidation algorithm as the spec words
it, for comparison with `joinSegments` — after each file the offset grows
by the maximum (not the last) original model number among that file's
atom rows, and the initial offset is the maximum model number among the
first file's atom rows. -/
def specJoinGo (off : Int) : List (List Line) → List (List Line)
  | [] => []
  | f :: fs => renumberFile off f :: specJoinGo (off + maxAtomNum f) fs

/-- Modelled from the spec: `consolidate(ordered_file_list)` with the
cumulative-maximum offset rule of spec section 4.4. -/
def specJoinSegments (files : List (List Line)) : Except String (List Line) :=
  match files with
  | [] => .error errIndex
  | f1 :: rest => .ok (f1 ++ (specJoinGo (maxAtomNum f1) rest).flatten)

/-! ## Range extraction (`extract_segment_from_mmcif`) -/

/-- One row of the `_atom_site` table as `extract_segment_from_mmcif`
sees it through
`block.find("_atom_site.", ['label_asym_id', 'label_seq_id'])`:
the chain id (`row[0]`), the residue sequence id (`row[1]`, a raw string
that the code parses with `int`), and the row's remaining fields, which
the extraction never inspects. -/
structure AtomRow where
  asymId : List Char
  seqId : List Char
  rest : List Char
deriving DecidableEq

/-- A structural document: the content outside the `_atom_site` table
(the extraction leaves it untouched) and the ordered atom rows. -/
structure CifDoc where
  pre : List (List Char)
  rows : List AtomRow
deriving DecidableEq

/-- One iteration of the row-collection loop of
`extract_segment_from_mmcif`:
`(row[0] == chain_id) and (int(row[1]) in residue_indices)`, with the
`ValueError` of `int` on a non-numeric residue id (only reached when the
chain matches, by short-circuit) modelled as an error. -/
def rowKeep (chainId : List Char) (residueIndices : List Int) (r : AtomRow) :
    Except String Bool :=
  if r.asymId = chainId then
    match parseInt? r.seqId with
    | none => .error errValue
    | some k => .ok (decide (k ∈ residueIndices))
  else .ok false

/-- The row-collection loop of `extract_segment_from_mmcif`: the
`row_index` of every row whose chain id equals `chain_id` and whose
parsed residue id is one of `residue_indices`, in row order, starting
from index `i`. -/
def keepRowsGo (chainId : List Char) (residueIndices : List Int) (i : Nat) :
    List AtomRow → Except String (List Nat)
  | [] => .ok []
  | r :: rs =>
    match rowKeep chainId residueIndices r with
    | .error e => .error e
    | .ok true =>
      match keepRowsGo chainId residueIndices (i + 1) rs with
      | .error e => .error e
      | .ok ks => .ok (i :: ks)
    | .ok false => keepRowsGo chainId residueIndices (i + 1) rs

/-- Model of `extract_segment_from_mmcif` from `loopbuilder/convert.py`:
collect the matching row indices, take `start = min(keep_rows)` and
`end = max(keep_rows)` (Python `min`/`max` on an empty list raise
`ValueError`, modelled as an error), then run the two deletions. The
first (`del table[:start]`, guarded by `start > 0` in the source, a
no-op difference) shortens the table to `rows.drop start`; the second
deletion `del table[end - start + 1:]` is guarded by
`end < len(table) - 1`, where `len(table)` is the length of the
*already shortened* table while `end` is an index into the original
one, so when the guard fails the rows after `end` are left in place.
Everything outside the atom table is untouched. -/
def extractSegment (doc : CifDoc) (residueIndices : List Int) (chainId : List Char) :
    Except String CifDoc :=
  match keepRowsGo chainId residueIndices 0 doc.rows with
  | .error e => .error e
  | .ok ks =>
    match ks.min?, ks.max? with
    | some s, some e =>
      let t1 := doc.rows.drop s
      .ok ⟨doc.pre, if (e : Int) < (t1.length : Int) - 1 then t1.take (e - s + 1) else t1⟩
    | _, _ => .error errValue

/-- Pure form of the matching condition of one row (defined only where
the residue id parses; used to characterise `keepRowsGo`). -/
def rowMatches (chainId : List Char) (residueIndices : List Int) (r : AtomRow) : Bool :=
  decide (r.asymId = chainId) &&
    (match parseInt? r.seqId with
     | some k => decide (k ∈ residueIndices)
     | none => false)

/-! ## Evaluators (`score.py`) and the trial pipeline (`build.py`) -/

/-- A configuration or score value (Python values used by the evaluator
configuration maps and score mappings). -/
inductive Val where
  | bool (b : Bool)
  | str (s : String)
  | int (n : Int)
deriving DecidableEq

/-- A Python `dict` modelled as an ordered association list (insertion
order, unique keys when built from Python dict literals). -/
abbrev Dict := List (String × Val)

/-- Model of Python `d[k] = v`: replace the value at the first
occurrence of `k`, or append the new pair. -/
def dictSet (d : Dict) (k : String) (v : Val) : Dict :=
  match d with
  | [] => [(k, v)]
  | p :: rest => if p.1 = k then (k, v) :: rest else p :: dictSet rest k v

/-- Model of Python `d.update(other)` and of the dict merge
`{**d, **other}`: set every pair of `other` in order. -/
def dictUpdate (d other : Dict) : Dict :=
  other.foldl (fun acc p => dictSet acc p.1 p.2) d

/-- Model of Python `d.get(k)` / `d[k]` lookup: the value at the first
occurrence of `k`. -/
def dictLookup (d : Dict) (k : String) : Option Val :=
  match d with
  | [] => none
  | p :: rest => if p.1 = k then some p.2 else dictLookup rest k

def cleanupKey : String := "cleanup"

def executableKey : String := "executable"

def molprobityErrorKey : String := "molprobity_error"

/-- `SegmentModelEvaluatorBase.__default_parameters`. -/
def baseDefaultParameters : Dict := [(cleanupKey, .bool true)]

/-- `MolProbityScorer.__default_parameters`. -/
def molProbityDefaultParameters : Dict := [(executableKey, .str "molprobity.molprobity")]

/-- An evaluator instance: display identifier and configuration map. -/
structure Evaluator where
  identifier : String
  parameters : Dict
deriving DecidableEq

/-- Model of `SegmentModelEvaluatorBase.__init__`: the identifier
defaults to the class name when `None` is supplied, and the parameters
are `{**SegmentModelEvaluatorBase.__default_parameters,
**<Subclass>.__default_parameters, **kwargs}`. -/
def mkEvaluator (className : String) (identifierOpt : Option String)
    (subclassDefaults : Dict) (kwargs : Dict) : Evaluator :=
  { identifier := identifierOpt.getD className
    parameters := dictUpdate (dictUpdate baseDefaultParameters subclassDefaults) kwargs }

/-- Outcome of one run of the external MolProbity executable: the
process exit status and captured standard error, and the score entries
that `parse_output` reads from `molprobity.out` on success (the external
tool and its report grammar are collaborators outside the core, so the
parsed entries are part of the oracle). -/
structure ToolRun where
  returncode : Int
  stderr : String
  parsed : Dict

/-- Model of `MolProbityScorer.score`: a non-zero exit status stores the
captured standard error under `"molprobity_error"` and returns; a zero
exit status merges the parsed scores into the model's score mapping.
Neither path raises. -/
def molProbityScore (r : ToolRun) (sc : Dict) : Except String Dict :=
  if r.returncode ≠ 0 then .ok (dictSet sc molprobityErrorKey (.str r.stderr))
  else .ok (dictUpdate sc r.parsed)

/-- The scorer loop of `Builder.build`
(`for scorer in self.scorers: scorer(segment_model)`): every scorer runs
in configured order; a scorer that raises aborts the run (`Except`). -/
def runScorers (ss : List (Dict → Except String Dict)) (sc : Dict) : Except String Dict :=
  match ss with
  | [] => .ok sc
  | s :: rest =>
    match s sc with
    | .error e => .error e
    | .ok sc' => runScorers rest sc'

/-- The filter loop of `Builder.build` (`for filter_ in self.filters:
if not filter_(segment_model): break / else: accept`): returns how many
filters were invoked and whether the trial is accepted. Evaluation stops
at the first filter returning `false`. -/
def runFilters {α : Type} (fs : List (α → Bool)) (m : α) : Nat × Bool :=
  match fs with
  | [] => (0, true)
  | f :: rest =>
    if f m then
      let r := runFilters rest m
      (r.1 + 1, r.2)
    else (1, false)

/-- One trial of `Builder.build` after the candidate is generated and
trimmed: run all scorers, then the filters over the resulting score
mapping. -/
def runTrial (ss : List (Dict → Except String Dict)) (fs : List (Dict → Bool)) (sc : Dict) :
    Except String (Dict × Nat × Bool) :=
  match runScorers ss sc with
  | .error e => .error e
  | .ok sc' => .ok (sc', runFilters fs sc')

/-! ## The per-segment trial loop and `Builder.build` control flow -/

/-- How the per-segment `while True` loop of `Builder.build` ends:
`success` models the `n_success >= n` break, `exhausted` the
`n_tries >= max_tries` break. -/
inductive LoopStop where
  | success
  | exhausted
deriving DecidableEq

/-- The per-segment `while True` loop of `Builder.build`, starting from
`n_success = s` and `n_tries = t`: stop with success when `n <= s`,
stop with exhaustion when `maxTries <= t`, otherwise run trial `t + 1`
(`pass` tells whether that trial passes every filter) and continue. -/
def segmentLoopGo (pass : Nat → Bool) (n maxTries : Nat) (s t : Nat) : Nat × Nat × LoopStop :=
  if n ≤ s then (s, t, .success)
  else if maxTries ≤ t then (s, t, .exhausted)
  else segmentLoopGo pass n maxTries (if pass (t + 1) then s + 1 else s) (t + 1)
termination_by maxTries - t
decreasing_by
simp only [not_le] at *
omega

/-- The per-segment loop from its initial state
`n_success = 0, n_tries = 0`. -/
def segmentLoop (pass : Nat → Bool) (n maxTries : Nat) : Nat × Nat × LoopStop :=
  segmentLoopGo pass n maxTries 0 0

/-- The sequence of `(n_success, n_tries)` states observed at the head
of the per-segment loop, initial state included. -/
def segmentLoopTrace (pass : Nat → Bool) (n maxTries : Nat) (s t : Nat) : List (Nat × Nat) :=
  (s, t) ::
    (if n ≤ s then []
     else if maxTries ≤ t then []
     else segmentLoopTrace pass n maxTries (if pass (t + 1) then s + 1 else s) (t + 1))
termination_by maxTries - t
decreasing_by
simp only [not_le] at *
omega

def warnBuildZero : String := "Building 0 models. Exiting."

def warnZeroTrials : String := "Using 0 trial models. Exiting."

def warnNoSegments : String := "No segments found"

/-- Model of the control flow of `Builder.build(n, max_tries)`: the
degenerate-argument guards (returning `None` with a warning), the
`max_tries = n * 10` default, the empty-segments early return, and the
per-segment trial loop. Segments are abstracted to indices and a trial
oracle `pass` tells whether trial `t` of segment `i` passes every
filter; file-system side effects are outside the model. The result is
the value `build` returns (`none` models Python `None`) paired with the
warnings emitted. -/
def builderBuild (segs : List Nat) (pass : Nat → Nat → Bool) (n : Int)
    (maxTriesOpt : Option Int) : Option (List (Nat × Nat × LoopStop)) × List String :=
  if n < 1 then (none, [warnBuildZero])
  else
    let maxTries := maxTriesOpt.getD (n * 10)
    if maxTries < 1 then (none, [warnZeroTrials])
    else if segs.isEmpty then (some [], [warnNoSegments])
    else (some (segs.map fun i => segmentLoop (pass i) n.toNat maxTries.toNat), [])

/-! ## Dictionary lemmas -/

theorem dictLookup_dictSet (d : Dict) (k k' : String) (v : Val) :
    dictLookup (dictSet d k v) k' = if k = k' then some v else dictLookup d k' := by
  induction d with
  | nil => rfl
  | cons p rest ih =>
    by_cases hp : p.1 = k
    · by_cases hk : k = k'
      · simp [dictSet, dictLookup, hp, hk]
      · have hpk' : ¬ p.1 = k' := by rw [hp]; exact hk
        simp [dictSet, dictLookup, hp, hk, hpk']
    · by_cases hp' : p.1 = k'
      · have hk : ¬ k = k' := fun he => hp (by rw [he, hp'])
        have hk2 : ¬ k' = k := fun he => hk he.symm
        simp [dictSet, dictLookup, hp, hp', hk, hk2]
      · simp [dictSet, dictLookup, hp, hp', ih]

theorem dictLookup_eq_none (d : Dict) (k : String) (h : k ∉ d.map Prod.fst) :
    dictLookup d k = none := by
  induction d with
  | nil => rfl
  | cons p rest ih =>
    simp only [List.map_cons, List.mem_cons] at h
    push_neg at h
    obtain ⟨h1, h2⟩ := h
    have hp : ¬ p.1 = k := fun (hp : p.1 = k) => h1 hp.symm
    simp only [dictLookup, if_neg hp]
    exact ih h2

theorem dictLookup_dictUpdate (d other : Dict) (k : String)
    (hnd : (other.map Prod.fst).Nodup) :
    dictLookup (dictUpdate d other) k =
      (match dictLookup other k with
       | some v => some v
       | none => dictLookup d k) := by
  induction other generalizing d with
  | nil => rfl
  | cons p rest ih =>
    simp only [List.map_cons, List.nodup_cons] at hnd
    have step : dictUpdate d (p :: rest) = dictUpdate (dictSet d p.1 p.2) rest := rfl
    rw [step, ih _ hnd.2]
    by_cases hk : p.1 = k
    · have hrest : dictLookup rest k = none :=
        dictLookup_eq_none rest k (by rw [← hk]; exact hnd.1)
      simp [dictLookup, hrest, dictLookup_dictSet, hk]
    · cases hrk : dictLookup rest k <;> simp [dictLookup, dictLookup_dictSet, hk, hrk]

/-! ## Claim C8: evaluator identifier default and configuration precedence -/

/-- Claim C8: for every evaluator instance, the display identifier
defaults to its class's name when none is supplied, and the
configuration map is the layered merge of base shared defaults, then
kind-specific defaults, then caller-supplied keyword values, later
layers winning on key collision. -/
theorem evaluator_config_precedence (className : String) (idOpt : Option String)
    (sub kw : Dict) (k : String)
    (hsub : (sub.map Prod.fst).Nodup) (hkw : (kw.map Prod.fst).Nodup) :
    (mkEvaluator className none sub kw).identifier = className ∧
    (∀ i, (mkEvaluator className (some i) sub kw).identifier = i) ∧
    dictLookup (mkEvaluator className idOpt sub kw).parameters k =
      (match dictLookup kw k with
       | some v => some v
       | none =>
         match dictLookup sub k with
         | some v => some v
         | none => dictLookup baseDefaultParameters k) := by
  refine ⟨rfl, fun i => rfl, ?_⟩
  show dictLookup (dictUpdate (dictUpdate baseDefaultParameters sub) kw) k = _
  rw [dictLookup_dictUpdate _ _ _ hkw, dictLookup_dictUpdate _ _ _ hsub]

/-- Keyword arguments used by the C8 witness: the caller overrides the
base default `cleanup = True`. -/
def witnessKwargs : Dict := [(cleanupKey, Val.bool false)]

/-- Witness for C8 at a concrete instance (the `MolProbityScorer` class
defaults with a caller override of `cleanup`). -/
theorem evaluator_config_precedence_witness :
    (mkEvaluator "MolProbityScorer" none molProbityDefaultParameters witnessKwargs).identifier
        = "MolProbityScorer" ∧
    (∀ i, (mkEvaluator "MolProbityScorer" (some i) molProbityDefaultParameters
        witnessKwargs).identifier = i) ∧
    dictLookup (mkEvaluator "MolProbityScorer" none molProbityDefaultParameters
        witnessKwargs).parameters cleanupKey =
      (match dictLookup witnessKwargs cleanupKey with
       | some v => some v
       | none =>
         match dictLookup molProbityDefaultParameters cleanupKey with
         | some v => some v
         | none => dictLookup baseDefaultParameters cleanupKey) :=
  evaluator_config_precedence "MolProbityScorer" none molProbityDefaultParameters
    witnessKwargs cleanupKey (by decide) (by decide)

/-! ## Claim C4: filter short-circuit -/

/-- Claim C4: filters run in configured order and evaluation stops at
the first filter returning `false`: on a rejected trial the number of
filters invoked equals the 1-based position of the first rejecting
filter, and the trial is accepted iff every filter in the list is
invoked and returns `true`. -/
theorem filter_short_circuit {α : Type} (fs : List (α → Bool)) (m : α) :
    ((runFilters fs m).2 = false →
      (runFilters fs m).1 = fs.findIdx (fun f => !(f m)) + 1) ∧
    ((runFilters fs m).2 = true ↔
      ((runFilters fs m).1 = fs.length ∧ ∀ f ∈ fs, f m = true)) := by
  induction fs with
  | nil => simp [runFilters]
  | cons f rest ih =>
    by_cases hf : f m
    · constructor
      · intro hrej
        simp only [runFilters, if_pos hf] at hrej ⊢
        rw [ih.1 hrej, List.findIdx_cons]
        simp [hf]
      · simp only [runFilters, if_pos hf, List.length_cons, List.mem_cons]
        constructor
        · intro hacc
          have hih := ih.2.1 hacc
          refine ⟨by omega, fun g hg => ?_⟩
          rcases hg with rfl | hg
          · exact hf
          · exact hih.2 g hg
        · rintro ⟨hlen, hall⟩
          exact ih.2.2 ⟨by omega, fun g hg => hall g (Or.inr hg)⟩
    · constructor
      · intro _
        simp only [runFilters, if_neg hf, List.findIdx_cons]
        simp [hf]
      · simp only [runFilters, if_neg hf]
        constructor
        · intro h
          exact absurd h (by simp)
        · rintro ⟨_, hall⟩
          exact absurd (hall f (List.mem_cons_self f rest)) (by simp [hf])

/-- Filter list used by the C4 witness. -/
def witnessFilters : List (Nat → Bool) := [fun k => decide (0 < k), fun k => decide (k < 5)]

/-- Witness for C4: on input `7` the second filter is the first to
reject, and exactly two filters are invoked. -/
theorem filter_short_circuit_witness :
    (runFilters witnessFilters 7).1 = witnessFilters.findIdx (fun f => !(f 7)) + 1 :=
  (filter_short_circuit witnessFilters 7).1 (by decide)

/-! ## Claim C6: scorer tool failure is recorded, not propagated -/

theorem runScorers_append (s1 s2 : List (Dict → Except String Dict)) (sc : Dict) :
    runScorers (s1 ++ s2) sc =
      (match runScorers s1 sc with
       | .error e => .error e
       | .ok sc' => runScorers s2 sc') := by
  induction s1 generalizing sc with
  | nil => rfl
  | cons s rest ih =>
    simp only [List.cons_append, runScorers]
    cases s sc with
    | error e => rfl
    | ok sc' => exact ih sc'

/-- Claim C6: a non-zero exit status of the scorer's external tool is
recorded as an error entry in the score mapping and is not propagated as
an exception; every remaining configured scorer still runs and the trial
proceeds to filtering with the scores produced. -/
theorem scorer_failure_recorded (r : ToolRun) (hr : r.returncode ≠ 0)
    (s1 s2 : List (Dict → Except String Dict)) (fs : List (Dict → Bool)) (sc : Dict) :
    (∀ d : Dict, molProbityScore r d = .ok (dictSet d molprobityErrorKey (.str r.stderr))) ∧
    (∀ d : Dict,
      dictLookup (dictSet d molprobityErrorKey (.str r.stderr)) molprobityErrorKey
        = some (.str r.stderr)) ∧
    runTrial (s1 ++ molProbityScore r :: s2) fs sc =
      (match runScorers s1 sc with
       | .error e => .error e
       | .ok d => runTrial s2 fs (dictSet d molprobityErrorKey (.str r.stderr))) := by
  have hmp : ∀ d : Dict,
      molProbityScore r d = .ok (dictSet d molprobityErrorKey (.str r.stderr)) := by
    intro d
    simp [molProbityScore, hr]
  refine ⟨hmp, fun d => by rw [dictLookup_dictSet]; simp, ?_⟩
  unfold runTrial
  rw [runScorers_append]
  cases runScorers s1 sc with
  | error e => rfl
  | ok d =>
    simp only [runScorers, hmp d]

/-- Tool-run outcome used by the C6 witness: exit status 1. -/
def witnessToolRun : ToolRun := { returncode := 1, stderr := "boom", parsed := [] }

/-- Witness for C6 at a concrete failing tool run. -/
theorem scorer_failure_recorded_witness :
    (∀ d : Dict, molProbityScore witnessToolRun d
        = .ok (dictSet d molprobityErrorKey (.str witnessToolRun.stderr))) ∧
    (∀ d : Dict,
      dictLookup (dictSet d molprobityErrorKey (.str witnessToolRun.stderr)) molprobityErrorKey
        = some (.str witnessToolRun.stderr)) ∧
    runTrial ([] ++ molProbityScore witnessToolRun :: []) [] []
      = (match runScorers [] [] with
         | .error e => .error e
         | .ok d => runTrial [] [] (dictSet d molprobityErrorKey (.str witnessToolRun.stderr))) :=
  scorer_failure_recorded witnessToolRun (by decide) [] [] [] []

/-! ## Claim C5: degenerate build arguments are a warned no-op -/

/-- Claim C5: calling `build` with `n < 1`, or with an explicit
`max_tries < 1`, builds nothing: it returns the empty (`None`) result
with a warning and without raising. -/
theorem build_degenerate_noop (segs : List Nat) (pass : Nat → Nat → Bool) (n : Int)
    (mt : Option Int)
    (h : n < 1 ∨ (1 ≤ n ∧ ∃ m, mt = some m ∧ m < 1)) :
    (builderBuild segs pass n mt).1 = none ∧
    ((builderBuild segs pass n mt).2 = [warnBuildZero] ∨
     (builderBuild segs pass n mt).2 = [warnZeroTrials]) := by
  rcases h with h | ⟨hn, m, rfl, hm⟩
  · unfold builderBuild
    rw [if_pos h]
    exact ⟨rfl, .inl rfl⟩
  · unfold builderBuild
    rw [if_neg (by omega)]
    simp only [Option.getD_some]
    rw [if_pos hm]
    exact ⟨rfl, .inr rfl⟩

/-- Witness for C5: `n = 0` with two segments present is a warned no-op. -/
theorem build_degenerate_noop_witness :
    (builderBuild [0, 1] (fun _ _ => true) 0 none).1 = none ∧
    ((builderBuild [0, 1] (fun _ _ => true) 0 none).2 = [warnBuildZero] ∨
     (builderBuild [0, 1] (fun _ _ => true) 0 none).2 = [warnZeroTrials]) :=
  build_degenerate_noop [0, 1] (fun _ _ => true) 0 none (.inl (by decide))

/-! ## Claim C2: per-segment loop bounds and stop conditions -/

theorem segmentLoopGo_spec (pass : Nat → Bool) (n maxT : Nat) :
    ∀ k t s, maxT - t ≤ k → s ≤ n → t ≤ maxT →
      (segmentLoopGo pass n maxT s t).1 ≤ n ∧
      (segmentLoopGo pass n maxT s t).2.1 ≤ maxT ∧
      ((segmentLoopGo pass n maxT s t).2.2 = LoopStop.success ↔
        n ≤ (segmentLoopGo pass n maxT s t).1) ∧
      ((segmentLoopGo pass n maxT s t).2.2 = LoopStop.exhausted ↔
        ((segmentLoopGo pass n maxT s t).1 < n ∧
          maxT ≤ (segmentLoopGo pass n maxT s t).2.1)) := by
  intro k
  induction k with
  | zero =>
    intro t s hk hs ht
    rw [segmentLoopGo]
    have htm : maxT ≤ t := by omega
    by_cases h1 : n ≤ s
    · simp only [if_pos h1]
      refine ⟨hs, ht, by simp [h1], by simp; omega⟩
    · simp only [if_neg h1, if_pos htm]
      refine ⟨hs, ht, by simp [h1], by simp; omega⟩
  | succ k ih =>
    intro t s hk hs ht
    rw [segmentLoopGo]
    by_cases h1 : n ≤ s
    · simp only [if_pos h1]
      refine ⟨hs, ht, by simp [h1], by simp; omega⟩
    · by_cases h2 : maxT ≤ t
      · simp only [if_neg h1, if_pos h2]
        refine ⟨hs, ht, by simp [h1], by simp; omega⟩
      · simp only [if_neg h1, if_neg h2]
        exact ih (t + 1) (if pass (t + 1) then s + 1 else s) (by omega)
          (by split <;> omega) (by omega)

theorem segmentLoopTrace_spec (pass : Nat → Bool) (n maxT : Nat) :
    ∀ k t s, maxT - t ≤ k → s ≤ n → t ≤ maxT →
      ∀ p ∈ segmentLoopTrace pass n maxT s t, p.1 ≤ n ∧ p.2 ≤ maxT := by
  intro k
  induction k with
  | zero =>
    intro t s hk hs ht p hp
    rw [segmentLoopTrace] at hp
    have htm : maxT ≤ t := by omega
    by_cases h1 : n ≤ s
    · simp only [if_pos h1, List.mem_singleton] at hp
      subst hp; exact ⟨hs, ht⟩
    · simp only [if_neg h1, if_pos htm, List.mem_singleton] at hp
      subst hp; exact ⟨hs, ht⟩
  | succ k ih =>
    intro t s hk hs ht p hp
    rw [segmentLoopTrace] at hp
    by_cases h1 : n ≤ s
    · simp only [if_pos h1, List.mem_singleton] at hp
      subst hp; exact ⟨hs, ht⟩
    · by_cases h2 : maxT ≤ t
      · simp only [if_neg h1, if_pos h2, List.mem_singleton] at hp
        subst hp; exact ⟨hs, ht⟩
      · simp only [if_neg h1, if_neg h2, List.mem_cons] at hp
        rcases hp with rfl | hp
        · exact ⟨hs, ht⟩
        · exact ih (t + 1) (if pass (t + 1) then s + 1 else s) (by omega)
            (by split <;> omega) (by omega) p hp

/-- Claim C2: for `n >= 1` and `max_tries >= 1`, at every point of the
per-segment trial loop the number of accepted models never exceeds `n`
and the number of attempts never exceeds `max_tries`; the loop stops
with success exactly when `accepted >= n` and with exhaustion exactly
when it stops short of the quota with `attempts >= max_tries`. -/
theorem trial_loop_bounds (pass : Nat → Bool) (n maxT : Nat)
    (hn : 1 ≤ n) (hm : 1 ≤ maxT) :
    (∀ p ∈ segmentLoopTrace pass n maxT 0 0, p.1 ≤ n ∧ p.2 ≤ maxT) ∧
    (segmentLoop pass n maxT).1 ≤ n ∧
    (segmentLoop pass n maxT).2.1 ≤ maxT ∧
    ((segmentLoop pass n maxT).2.2 = LoopStop.success ↔
      n ≤ (segmentLoop pass n maxT).1) ∧
    ((segmentLoop pass n maxT).2.2 = LoopStop.exhausted ↔
      ((segmentLoop pass n maxT).1 < n ∧ maxT ≤ (segmentLoop pass n maxT).2.1)) := by
  refine ⟨fun p hp => segmentLoopTrace_spec pass n maxT maxT 0 0 (by omega) (by omega)
    (by omega) p hp, ?_⟩
  exact segmentLoopGo_spec pass n maxT maxT 0 0 (by omega) (by omega) (by omega)

/-- Witness for C2 at `n = 2`, `max_tries = 3` with trials passing on
even attempt numbers. -/
theorem trial_loop_bounds_witness :
    (∀ p ∈ segmentLoopTrace (fun t => decide (t % 2 = 0)) 2 3 0 0, p.1 ≤ 2 ∧ p.2 ≤ 3) ∧
    (segmentLoop (fun t => decide (t % 2 = 0)) 2 3).1 ≤ 2 ∧
    (segmentLoop (fun t => decide (t % 2 = 0)) 2 3).2.1 ≤ 3 ∧
    ((segmentLoop (fun t => decide (t % 2 = 0)) 2 3).2.2 = LoopStop.success ↔
      2 ≤ (segmentLoop (fun t => decide (t % 2 = 0)) 2 3).1) ∧
    ((segmentLoop (fun t => decide (t % 2 = 0)) 2 3).2.2 = LoopStop.exhausted ↔
      ((segmentLoop (fun t => decide (t % 2 = 0)) 2 3).1 < 2 ∧
        3 ≤ (segmentLoop (fun t => decide (t % 2 = 0)) 2 3).2.1)) :=
  trial_loop_bounds (fun t => decide (t % 2 = 0)) 2 3 (by decide) (by decide)

/-! ## Range extraction lemmas (claims C3 and C7) -/

/-- Pure form of the row-collection loop, defined where every residue id
in the requested chain parses: the indices (from `i`) of the matching
rows. -/
def matchIdxGo (c : List Char) (idx : List Int) (i : Nat) : List AtomRow → List Nat
  | [] => []
  | r :: rs =>
    if rowMatches c idx r then i :: matchIdxGo c idx (i + 1) rs
    else matchIdxGo c idx (i + 1) rs

theorem keepRowsGo_eq_ok (c : List Char) (idx : List Int) :
    ∀ (rows : List AtomRow) (i : Nat),
      (∀ r ∈ rows, r.asymId = c → (parseInt? r.seqId).isSome) →
      keepRowsGo c idx i rows = .ok (matchIdxGo c idx i rows) := by
  intro rows
  induction rows with
  | nil => intro i _; rfl
  | cons r rs ih =>
    intro i hp
    have hrs : ∀ r' ∈ rs, r'.asymId = c → (parseInt? r'.seqId).isSome :=
      fun r' hr' => hp r' (List.mem_cons_of_mem r hr')
    by_cases hc : r.asymId = c
    · obtain ⟨k, hk⟩ := Option.isSome_iff_exists.mp (hp r (List.mem_cons_self r rs) hc)
      by_cases hin : k ∈ idx
      · simp [keepRowsGo, rowKeep, matchIdxGo, rowMatches, hc, hk, hin, ih (i + 1) hrs]
      · simp [keepRowsGo, rowKeep, matchIdxGo, rowMatches, hc, hk, hin, ih (i + 1) hrs]
    · simp [keepRowsGo, rowKeep, matchIdxGo, rowMatches, hc, ih (i + 1) hrs]

theorem keepRowsGo_ok_parses (c : List Char) (idx : List Int) :
    ∀ (rows : List AtomRow) (i : Nat) (ks : List Nat),
      keepRowsGo c idx i rows = .ok ks →
      ∀ r ∈ rows, r.asymId = c → (parseInt? r.seqId).isSome := by
  intro rows
  induction rows with
  | nil => intro i ks _ r hr; exact absurd hr (List.not_mem_nil r)
  | cons r rs ih =>
    intro i ks hok r' hr' hc'
    rcases List.mem_cons.mp hr' with rfl | hmem
    · by_cases hc : r'.asymId = c
      · cases hps : parseInt? r'.seqId with
        | none =>
          rw [keepRowsGo] at hok
          simp [rowKeep, hc, hps] at hok
        | some k => simp
      · exact absurd hc' hc
    · rw [keepRowsGo] at hok
      cases hrk : rowKeep c idx r with
      | error e => rw [hrk] at hok; exact absurd hok (by simp)
      | ok b =>
        rw [hrk] at hok
        cases b with
        | true =>
          cases hrec : keepRowsGo c idx (i + 1) rs with
          | error e => rw [hrec] at hok; exact absurd hok (by simp)
          | ok ks' => exact ih (i + 1) ks' hrec r' hmem hc'
        | false => exact ih (i + 1) ks hok r' hmem hc'

theorem mem_matchIdxGo (c : List Char) (idx : List Int) :
    ∀ (rows : List AtomRow) (i j : Nat),
      j ∈ matchIdxGo c idx i rows ↔
        ∃ (d : Nat) (hd : d < rows.length),
          j = i + d ∧ rowMatches c idx (rows.get ⟨d, hd⟩) = true := by
  intro rows
  induction rows with
  | nil =>
    intro i j
    simp [matchIdxGo]
  | cons r rs ih =>
    intro i j
    by_cases hm : rowMatches c idx r = true
    · rw [matchIdxGo, if_pos hm]
      constructor
      · intro hj
        rcases List.mem_cons.mp hj with rfl | hj'
        · exact ⟨0, by simp, by simp, hm⟩
        · obtain ⟨d, hd, hjd, hmt⟩ := (ih (i + 1) j).mp hj'
          exact ⟨d + 1, by simpa using Nat.succ_lt_succ hd, by omega, hmt⟩
      · rintro ⟨d, hd, hjd, hmt⟩
        cases d with
        | zero => simp only [Nat.add_zero] at hjd; subst hjd; exact List.mem_cons_self _ _
        | succ d' =>
          refine List.mem_cons_of_mem _ ((ih (i + 1) j).mpr ?_)
          exact ⟨d', by simpa using Nat.lt_of_succ_lt_succ hd, by omega, hmt⟩
    · rw [matchIdxGo, if_neg hm]
      constructor
      · intro hj
        obtain ⟨d, hd, hjd, hmt⟩ := (ih (i + 1) j).mp hj
        exact ⟨d + 1, by simpa using Nat.succ_lt_succ hd, by omega, hmt⟩
      · rintro ⟨d, hd, hjd, hmt⟩
        cases d with
        | zero => exact absurd hmt hm
        | succ d' =>
          refine (ih (i + 1) j).mpr ?_
          exact ⟨d', by simpa using Nat.lt_of_succ_lt_succ hd, by omega, hmt⟩

theorem matchIdxGo_eq_nil (c : List Char) (idx : List Int) :
    ∀ (rows : List AtomRow) (i : Nat),
      (∀ r ∈ rows, rowMatches c idx r = false) →
      matchIdxGo c idx i rows = [] := by
  intro rows
  induction rows with
  | nil => intro i _; rfl
  | cons r rs ih =>
    intro i h
    rw [matchIdxGo, if_neg (by simp [h r (List.mem_cons_self r rs)]),
      ih (i + 1) (fun r' hr' => h r' (List.mem_cons_of_mem r hr'))]

/-! ## Claim C3: extraction with no matching row fails -/

/-- Claim C3: if no atom row has the requested chain id together with a
residue id among the requested indices, `extract_segment_from_mmcif`
fails (raises) instead of producing a document. -/
theorem extract_no_match_fails (doc : CifDoc) (idx : List Int) (c : List Char)
    (h : ∀ r ∈ doc.rows, rowMatches c idx r = false) :
    ∃ msg, extractSegment doc idx c = .error msg := by
  cases hk : keepRowsGo c idx 0 doc.rows with
  | error e =>
    refine ⟨e, ?_⟩
    unfold extractSegment
    rw [hk]
  | ok ks =>
    have hparse := keepRowsGo_ok_parses c idx doc.rows 0 ks hk
    have hks : ks = matchIdxGo c idx 0 doc.rows := by
      rw [keepRowsGo_eq_ok c idx doc.rows 0 hparse] at hk
      exact (Except.ok.inj hk).symm
    have hnil : ks = [] := by rw [hks, matchIdxGo_eq_nil c idx doc.rows 0 h]
    refine ⟨errValue, ?_⟩
    unfold extractSegment
    rw [hk, hnil]
    rfl

/-- Document used by the C3 witness: one atom row on chain `B`. -/
def witnessDocB : CifDoc :=
  { pre := ["data_x".toList]
    rows := [{ asymId := "B".toList, seqId := "1".toList, rest := "N".toList }] }

/-- Witness for C3: requesting chain `A` from a document that only has
chain `B` fails. -/
theorem extract_no_match_fails_witness :
    ∃ msg, extractSegment witnessDocB [1] "A".toList = .error msg :=
  extract_no_match_fails witnessDocB [1] "A".toList (by decide)

/-! ## Claim C7: extraction is idempotent on an already-trimmed document -/

/-- Success shape of `extractSegment`: with collected indices `ks` and
their minimum `s` and maximum `st`, the result drops the first `s` rows
and truncates after row `st` only when the source's guard (which
compares the original index `st` against the shortened length) holds. -/
theorem extractSegment_shape (doc : CifDoc) (idx : List Int) (c : List Char)
    (ks : List Nat) (s st : Nat)
    (h1 : keepRowsGo c idx 0 doc.rows = .ok ks)
    (h2 : ks.min? = some s) (h3 : ks.max? = some st) :
    extractSegment doc idx c = .ok ⟨doc.pre,
      if (st : Int) < ((doc.rows.drop s).length : Int) - 1
      then (doc.rows.drop s).take (st - s + 1)
      else doc.rows.drop s⟩ := by
  unfold extractSegment
  rw [h1]
  simp only [h2, h3]

/-- The first element of a list, recovered from a `getElem?` fact. -/
theorem get_eq_of_getElem? {α : Type} (l : List α) (i : Nat) (h : i < l.length) (a : α)
    (hq : l[i]? = some a) : l.get ⟨i, h⟩ = a := by
  rw [List.get_eq_getElem]
  rw [List.getElem?_eq_getElem h] at hq
  exact Option.some.inj hq

/-- The first row of the table matches the request. -/
def headMatches (c : List Char) (idx : List Int) (rows : List AtomRow) : Bool :=
  match rows with
  | [] => false
  | r :: _ => rowMatches c idx r

/-- The last row of the table matches the request. -/
def lastMatches (c : List Char) (idx : List Int) (rows : List AtomRow) : Bool :=
  match rows.getLast? with
  | none => false
  | some r => rowMatches c idx r

/-- Claim C7, amended: a document already trimmed to exactly the
requested range — its first and its last atom row both match the
requested chain and endpoint indices — is a fixed point of the
extraction: extracting the same range from it returns it unchanged.
(The unrestricted round-trip `extract (extract doc) = extract doc`
fails on the code, see the counterexample: an extraction output need
not be exactly trimmed, because the second deletion's guard compares
the original `end` index against the already-shortened table.) -/
theorem extract_trimmed_fixed_point (doc : CifDoc) (idx : List Int) (c : List Char)
    (hparse : ∀ r ∈ doc.rows, r.asymId = c → (parseInt? r.seqId).isSome)
    (hhead : headMatches c idx doc.rows = true)
    (hlast : lastMatches c idx doc.rows = true) :
    extractSegment doc idx c = .ok doc := by
  have hk := keepRowsGo_eq_ok c idx doc.rows 0 hparse
  obtain ⟨r0, tail, hrows⟩ : ∃ r0 tail, doc.rows = r0 :: tail := by
    cases hr : doc.rows with
    | nil =>
      rw [hr] at hhead
      exact absurd hhead (by simp [headMatches])
    | cons a b => exact ⟨a, b, rfl⟩
  have hN : 1 ≤ doc.rows.length := by
    rw [hrows]
    simp
  have hm0 : rowMatches c idx r0 = true := by
    rw [hrows] at hhead
    simpa [headMatches] using hhead
  obtain ⟨rl, hrl⟩ : ∃ rl, doc.rows.getLast? = some rl := by
    cases hgl : doc.rows.getLast? with
    | none =>
      rw [List.getLast?_eq_none_iff.mp hgl] at hrows
      exact absurd hrows (by simp)
    | some rl => exact ⟨rl, rfl⟩
  have hml : rowMatches c idx rl = true := by
    unfold lastMatches at hlast
    rw [hrl] at hlast
    exact hlast
  have h0q : doc.rows[0]? = some r0 := by
    rw [hrows]
    simp
  have hlq : doc.rows[doc.rows.length - 1]? = some rl := by
    rw [← List.getLast?_eq_getElem?]
    exact hrl
  have hLmem : doc.rows.length - 1 < doc.rows.length := by omega
  have hmem0 : 0 ∈ matchIdxGo c idx 0 doc.rows := by
    have hlt : 0 < doc.rows.length := by omega
    refine (mem_matchIdxGo c idx doc.rows 0 0).mpr ⟨0, hlt, by omega, ?_⟩
    rw [get_eq_of_getElem? doc.rows 0 hlt r0 h0q]
    exact hm0
  have hmemL : doc.rows.length - 1 ∈ matchIdxGo c idx 0 doc.rows := by
    refine (mem_matchIdxGo c idx doc.rows 0 (doc.rows.length - 1)).mpr
      ⟨doc.rows.length - 1, hLmem, by omega, ?_⟩
    rw [get_eq_of_getElem? doc.rows (doc.rows.length - 1) hLmem rl hlq]
    exact hml
  have hbound : ∀ j ∈ matchIdxGo c idx 0 doc.rows, j ≤ doc.rows.length - 1 := by
    intro j hj
    obtain ⟨d, hd, hjd, _⟩ := (mem_matchIdxGo c idx doc.rows 0 j).mp hj
    omega
  have hmin : (matchIdxGo c idx 0 doc.rows).min? = some 0 :=
    List.min?_eq_some_iff'.mpr ⟨hmem0, fun b _ => Nat.zero_le b⟩
  have hmax : (matchIdxGo c idx 0 doc.rows).max? = some (doc.rows.length - 1) :=
    List.max?_eq_some_iff'.mpr ⟨hmemL, hbound⟩
  rw [extractSegment_shape doc idx c (matchIdxGo c idx 0 doc.rows) 0
    (doc.rows.length - 1) hk hmin hmax]
  rw [List.drop_zero]
  rw [if_neg (by omega)]

/-- Document for the C7 counterexample: four rows on chain `A`; only
the middle rows (residues 1 and 2) match, so `start = 1`, `end = 2`. -/
def cexDoc : CifDoc :=
  { pre := ["data_x".toList]
    rows := [{ asymId := "A".toList, seqId := "5".toList, rest := "N".toList },
             { asymId := "A".toList, seqId := "1".toList, rest := "N".toList },
             { asymId := "A".toList, seqId := "2".toList, rest := "CA".toList },
             { asymId := "A".toList, seqId := "7".toList, rest := "C".toList }] }

/-- First extraction of `cexDoc`: the leading row is dropped, but the
guard `end < len(table) - 1` (2 < 2) fails, so the trailing residue-7
row survives. -/
def cexDocMid : CifDoc :=
  { pre := ["data_x".toList]
    rows := [{ asymId := "A".toList, seqId := "1".toList, rest := "N".toList },
             { asymId := "A".toList, seqId := "2".toList, rest := "CA".toList },
             { asymId := "A".toList, seqId := "7".toList, rest := "C".toList }] }

/-- Second extraction of the same range: now `start = 0`, the guard is
correct, and the trailing row is removed. -/
def cexDocFinal : CifDoc :=
  { pre := ["data_x".toList]
    rows := [{ asymId := "A".toList, seqId := "1".toList, rest := "N".toList },
             { asymId := "A".toList, seqId := "2".toList, rest := "CA".toList }] }

/-- Counterexample to C7 as stated (the round-trip reading): extracting
residues 1 to 2 of chain `A` from `cexDoc` leaves a trailing unmatched
row in place, and extracting the same range again removes it, so the
second extraction changes the document. -/
theorem extract_roundtrip_counterexample :
    extractSegment cexDoc [1, 2] "A".toList = .ok cexDocMid ∧
    extractSegment cexDocMid [1, 2] "A".toList = .ok cexDocFinal ∧
    cexDocMid ≠ cexDocFinal :=
  ⟨by decide, by decide, by decide⟩

/-- Document used by the C7 witness: already trimmed to chain `A`,
residues 1 to 2. -/
def witnessDocA : CifDoc :=
  { pre := ["data_x".toList]
    rows := [{ asymId := "A".toList, seqId := "1".toList, rest := "N".toList },
             { asymId := "A".toList, seqId := "2".toList, rest := "CA".toList }] }

/-- Witness for the amended C7: extracting residues 1 to 2 of chain `A`
from the already-trimmed document returns it unchanged. -/
theorem extract_trimmed_fixed_point_witness :
    extractSegment witnessDocA [1, 2] "A".toList = .ok witnessDocA :=
  extract_trimmed_fixed_point witnessDocA [1, 2] "A".toList (by decide) (by decide) (by decide)

/-! ## Consolidation lemmas (claims C1, C9, C10) -/

theorem mcNext_cons_atom (l : Line) (ls : List Line) (mc : Option Int) (m0 : Int)
    (ha : isAtomLine l = true) (hm : modelNum? l = some m0) :
    mcNext (l :: ls) mc = mcNext ls (some m0) := by
  unfold mcNext
  rw [List.filter_cons_of_pos ha]
  cases hL : ls.filter isAtomLine with
  | nil => simp [hL, hm]
  | cons x xs =>
    rw [List.getLast?_cons_cons]
    cases hy : (x :: xs).getLast? with
    | none => simp at hy
    | some y => simp [hy]

theorem mcNext_cons_other (l : Line) (ls : List Line) (mc : Option Int)
    (ha : ¬ isAtomLine l = true) :
    mcNext (l :: ls) mc = mcNext ls mc := by
  unfold mcNext
  rw [List.filter_cons_of_neg ha]

theorem joinFileLines_ok (off : Int) :
    ∀ (f : List Line) (mc : Option Int) (o : List Line) (m : Option Int),
      joinFileLines off f mc = .ok (o, m) →
      o = renumberFile off f ∧ m = mcNext f mc ∧
        ∀ l ∈ f, isAtomLine l = true → (modelNum? l).isSome := by
  intro f
  induction f with
  | nil =>
    intro mc o m h
    obtain ⟨h1, h2⟩ := Prod.mk.injEq .. ▸ Except.ok.inj h
    exact ⟨h1.symm, h2.symm, by simp⟩
  | cons l ls ih =>
    intro mc o m h
    by_cases ha : isAtomLine l = true
    · rw [joinFileLines, if_pos ha] at h
      cases hm : modelNum? l with
      | none =>
        simp only [hm] at h
        exact absurd h (by simp)
      | some m0 =>
        simp only [hm] at h
        cases hrec : joinFileLines off ls (some m0) with
        | error e =>
          simp only [hrec] at h
          exact absurd h (by simp)
        | ok pr =>
          obtain ⟨o', mcE⟩ := pr
          simp only [hrec] at h
          obtain ⟨ho, hmcE⟩ := Prod.mk.injEq .. ▸ Except.ok.inj h
          obtain ⟨ho', hmc', hps⟩ := ih (some m0) o' mcE hrec
          refine ⟨?_, ?_, ?_⟩
          · rw [← ho, ho']
            unfold renumberFile
            rw [List.filter_cons_of_pos ha, List.map_cons, hm]
            rfl
          · rw [← hmcE, hmc', mcNext_cons_atom l ls mc m0 ha hm]
          · intro l' hl' ha'
            rcases List.mem_cons.mp hl' with rfl | hl'
            · simp [hm]
            · exact hps l' hl' ha'
    · rw [joinFileLines, if_neg ha] at h
      obtain ⟨ho', hmc', hps⟩ := ih mc o m h
      refine ⟨?_, ?_, ?_⟩
      · rw [ho']
        unfold renumberFile
        rw [List.filter_cons_of_neg ha]
      · rw [hmc', mcNext_cons_other l ls mc ha]
      · intro l' hl' ha'
        rcases List.mem_cons.mp hl' with rfl | hl'
        · exact absurd ha' ha
        · exact hps l' hl' ha'

theorem joinFile_ok (st : JoinState) (f : List Line) (st' : JoinState)
    (h : joinFile st f = .ok st') :
    ∃ m, mcNext f st.mc = some m ∧
      st' = ⟨st.out ++ renumberFile st.off f, m + st.off, some m⟩ ∧
      ∀ l ∈ f, isAtomLine l = true → (modelNum? l).isSome := by
  unfold joinFile at h
  cases hjl : joinFileLines st.off f st.mc with
  | error e => rw [hjl] at h; exact absurd h (by simp)
  | ok pr =>
    obtain ⟨o, mcE⟩ := pr
    rw [hjl] at h
    obtain ⟨ho, hmcE, hps⟩ := joinFileLines_ok st.off f st.mc o mcE hjl
    cases mcE with
    | none => exact absurd h (by simp)
    | some m =>
      refine ⟨m, hmcE.symm, ?_, hps⟩
      rw [← ho]
      exact (Except.ok.inj h).symm

theorem joinFilesGo_ok :
    ∀ (fs : List (List Line)) (st st' : JoinState),
      joinFilesGo st fs = .ok st' →
      st'.out = st.out ++ (List.zipWith renumberFile (offsGo st.off st.mc fs) fs).flatten ∧
      ∀ f ∈ fs, ∀ l ∈ f, isAtomLine l = true → (modelNum? l).isSome := by
  intro fs
  induction fs with
  | nil =>
    intro st st' h
    obtain rfl : st = st' := Except.ok.inj h
    simp [offsGo]
  | cons f fs ih =>
    intro st st' h
    rw [joinFilesGo] at h
    cases hjf : joinFile st f with
    | error e => rw [hjf] at h; exact absurd h (by simp)
    | ok st1 =>
      rw [hjf] at h
      obtain ⟨m, hmc, hst1, hpsf⟩ := joinFile_ok st f st1 hjf
      obtain ⟨hout, hps⟩ := ih st1 st' h
      constructor
      · rw [hout, hst1]
        simp only [offsGo, hmc, Option.getD_some]
        rw [List.zipWith_cons_cons, List.flatten_cons]
        simp [List.append_assoc, Int.add_comm]
      · intro f' hf'
        rcases List.mem_cons.mp hf' with rfl | hf'
        · exact hpsf
        · exact hps f' hf'

/-- Structural characterisation of a successful `join_segments` run: the
output is the first file followed, for each subsequent file in order, by
its atom rows renumbered under that file's offset. -/
theorem joinSegments_ok_decomp (f1 : List Line) (rest : List (List Line)) (out : List Line)
    (h : joinSegments (f1 :: rest) = .ok out) :
    out = f1 ++ (List.zipWith renumberFile (joinOffsets (f1 :: rest)) rest).flatten ∧
    ∀ f ∈ rest, ∀ l ∈ f, isAtomLine l = true → (modelNum? l).isSome := by
  rw [joinSegments] at h
  cases hl : f1.getLast? with
  | none =>
    simp only [hl] at h
    exact absurd h (by simp)
  | some lastLine =>
    simp only [hl] at h
    cases hm : modelNum? lastLine with
    | none =>
      simp only [hm] at h
      exact absurd h (by simp)
    | some p =>
      simp only [hm] at h
      cases hgo : joinFilesGo ⟨f1, p, none⟩ rest with
      | error e =>
        simp only [hgo] at h
        exact absurd h (by simp)
      | ok stF =>
        simp only [hgo] at h
        obtain ⟨hout, hps⟩ := joinFilesGo_ok rest ⟨f1, p, none⟩ stF hgo
        refine ⟨?_, hps⟩
        rw [← Except.ok.inj h, hout]
        simp only [joinOffsets, hl, Option.some_bind, hm, Option.getD_some]

/-! ## Word-level lemmas about atom lines -/

theorem exists_of_isAtomLine (l : Line) (h : isAtomLine l = true) :
    ∃ cs, l = 'A' :: 'T' :: 'O' :: 'M' :: cs := by
  unfold isAtomLine at h
  split at h
  · next cs => exact ⟨cs, rfl⟩
  · exact absurd h (by simp)

theorem lineWords_ne_nil (c : Char) (hc : ¬ c = ' ') (cs : List Char) :
    lineWords (c :: cs) ≠ [] := by
  cases cs with
  | nil => simp [lineWords, hc]
  | cons d cs' =>
    by_cases hd : d = ' '
    · simp [lineWords, hc, hd]
    · rw [lineWords, if_neg hc]
      show (if d = ' ' then [c] :: lineWords (d :: cs')
            else
              match lineWords (d :: cs') with
              | [] => [[c]]
              | w :: ws => (c :: w) :: ws) ≠ []
      rw [if_neg hd]
      cases lineWords (d :: cs') <;> simp

theorem lineWords_cons_of_cons (c d : Char) (hc : ¬ c = ' ') (hd : ¬ d = ' ')
    (r : List Char) (w : List Char) (ws : List (List Char))
    (h : lineWords (d :: r) = w :: ws) :
    lineWords (c :: d :: r) = (c :: w) :: ws := by
  rw [lineWords, if_neg hc]
  show (if d = ' ' then [c] :: lineWords (d :: r)
        else
          match lineWords (d :: r) with
          | [] => [[c]]
          | w :: ws => (c :: w) :: ws) = (c :: w) :: ws
  rw [if_neg hd, h]

theorem lineWords_head (c : Char) (hc : ¬ c = ' ') (cs : List Char) :
    ∃ w ws, lineWords (c :: cs) = (c :: w) :: ws := by
  cases cs with
  | nil => exact ⟨[], [], by simp [lineWords, hc]⟩
  | cons d cs' =>
    by_cases hd : d = ' '
    · exact ⟨[], lineWords (d :: cs'), by simp [lineWords, hc, hd]⟩
    · cases hw : lineWords (d :: cs') with
      | nil => exact absurd hw (lineWords_ne_nil d hd cs')
      | cons w ws => exact ⟨w, ws, lineWords_cons_of_cons c d hc hd cs' w ws hw⟩

theorem lineWords_atom (cs : List Char) :
    ∃ w ws, lineWords ('A' :: 'T' :: 'O' :: 'M' :: cs) = ('A' :: 'T' :: 'O' :: 'M' :: w) :: ws := by
  obtain ⟨w, ws, hw⟩ := lineWords_head 'M' (by decide) cs
  have h1 := lineWords_cons_of_cons 'O' 'M' (by decide) (by decide) cs _ _ hw
  have h2 := lineWords_cons_of_cons 'T' 'O' (by decide) (by decide) ('M' :: cs) _ _ h1
  have h3 := lineWords_cons_of_cons 'A' 'T' (by decide) (by decide) ('O' :: 'M' :: cs) _ _ h2
  exact ⟨w, ws, h3⟩

theorem parseInt?_atom_word (w : List Char) :
    parseInt? ('A' :: 'T' :: 'O' :: 'M' :: w) = none := by
  have hda : ('A' : Char).isDigit = false := by decide
  unfold parseInt?
  split
  · next heq =>
    injection heq with h1 _
    exact absurd h1 (by decide)
  · next heq =>
    injection heq with h1 _
    exact absurd h1 (by decide)
  · simp [parseDigits?, hda]

theorem joinSpace_cons_head (xw : List Char) (rest : List (List Char)) :
    ∃ t, joinSpace (xw :: rest) = xw ++ t := by
  cases rest with
  | nil => exact ⟨[], by simp [joinSpace]⟩
  | cons y ys => exact ⟨' ' :: joinSpace (y :: ys), rfl⟩

theorem isAtomLine_atom_append (u v : List Char) :
    isAtomLine (('A' :: 'T' :: 'O' :: 'M' :: u) ++ v) = true := rfl

/-- An atom line whose trailing token parses has at least two
whitespace-delimited tokens (the record marker cannot be the numeric
trailing field), so its words are the leading `ATOM…` token followed by
at least one more. -/
theorem lineWords_atom_parse (l : Line) (ha : isAtomLine l = true)
    (hm : (modelNum? l).isSome) :
    ∃ w y ys, lineWords l = ('A' :: 'T' :: 'O' :: 'M' :: w) :: y :: ys := by
  obtain ⟨cs, rfl⟩ := exists_of_isAtomLine l ha
  obtain ⟨w, ws, hws⟩ := lineWords_atom cs
  cases ws with
  | nil =>
    exfalso
    unfold modelNum? at hm
    rw [hws] at hm
    simp [parseInt?_atom_word] at hm
  | cons y ys => exact ⟨w, y, ys, hws⟩

theorem isAtomLine_writeAtomLine (l : Line) (n : Int) (ha : isAtomLine l = true)
    (hm : (modelNum? l).isSome) :
    isAtomLine (writeAtomLine l n) = true := by
  obtain ⟨w, y, ys, hws⟩ := lineWords_atom_parse l ha hm
  unfold writeAtomLine
  rw [hws]
  rw [show (((('A' :: 'T' :: 'O' :: 'M' :: w)) :: y :: ys).dropLast)
      = ('A' :: 'T' :: 'O' :: 'M' :: w) :: (y :: ys).dropLast from rfl]
  obtain ⟨t, ht⟩ := joinSpace_cons_head ('A' :: 'T' :: 'O' :: 'M' :: w) ((y :: ys).dropLast)
  rw [ht, List.append_assoc]
  exact isAtomLine_atom_append _ _

theorem joinSpace_append_singleton (ws : List (List Char)) (w : List Char) (h : ws ≠ []) :
    joinSpace (ws ++ [w]) = joinSpace ws ++ ' ' :: w := by
  induction ws with
  | nil => exact absurd rfl h
  | cons x xs ih =>
    cases xs with
    | nil => simp [joinSpace]
    | cons y ys =>
      rw [show ((x :: y :: ys) ++ [w]) = x :: ((y :: ys) ++ [w]) from rfl]
      rw [show joinSpace (x :: y :: ys) = x ++ ' ' :: joinSpace (y :: ys) from rfl]
      rw [show joinSpace (x :: ((y :: ys) ++ [w])) = x ++ ' ' :: joinSpace ((y :: ys) ++ [w])
        from rfl]
      rw [ih (by simp)]
      simp

/-- Every line contributed by a subsequent file under a successful
consolidation is itself an atom line. -/
theorem renumber_contrib_atom (offs : List Int) (fs : List (List Line))
    (hps : ∀ f ∈ fs, ∀ l ∈ f, isAtomLine l = true → (modelNum? l).isSome) :
    ∀ l ∈ (List.zipWith renumberFile offs fs).flatten, isAtomLine l = true := by
  induction fs generalizing offs with
  | nil => simp
  | cons f fs ih =>
    cases offs with
    | nil => simp
    | cons off offs =>
      intro l hl
      rw [List.zipWith_cons_cons, List.flatten_cons] at hl
      rcases List.mem_append.mp hl with hl | hl
      · unfold renumberFile at hl
        obtain ⟨src, hsrc, rfl⟩ := List.mem_map.mp hl
        obtain ⟨hsrcf, hsrca⟩ := List.mem_filter.mp hsrc
        exact isAtomLine_writeAtomLine src _ hsrca
          (hps f (List.mem_cons_self f fs) src hsrcf hsrca)
      · exact ih offs (fun f' hf' => hps f' (List.mem_cons_of_mem f hf')) l hl

/-! ## Claim C9: only the first file's non-atom lines survive -/

/-- Claim C9: in the consolidated output every non-atom line comes from
the first input file — the first file's lines all survive as a prefix of
the output, and the remainder of the output consists exactly of the
subsequent files' renumbered atom rows (their non-atom lines are
dropped), each of which is itself an atom line. -/
theorem join_first_file_survives (f1 : List Line) (rest : List (List Line)) (out : List Line)
    (h : joinSegments (f1 :: rest) = .ok out) :
    out.take f1.length = f1 ∧
    out.drop f1.length = (List.zipWith renumberFile (joinOffsets (f1 :: rest)) rest).flatten ∧
    ∀ l ∈ out.drop f1.length, isAtomLine l = true := by
  obtain ⟨hout, hps⟩ := joinSegments_ok_decomp f1 rest out h
  subst hout
  refine ⟨List.take_left f1 _, List.drop_left f1 _, ?_⟩
  rw [List.drop_left f1 _]
  exact renumber_contrib_atom _ rest hps

/-- First file of the C9/C10 witnesses: a header line and one atom row. -/
def wjF1 : List Line := ["data_model".toList, "ATOM 1 N GLU A 600 1".toList]

/-- Second file of the C9/C10 witnesses: a header line (to be dropped)
and one atom row. -/
def wjF2 : List Line := ["loop_".toList, "ATOM 1 N GLU A 600 1".toList]

/-- Witness for C9 on two concrete files. -/
theorem join_first_file_survives_witness :
    (let files := [wjF1, wjF2]
     let out := wjF1 ++ ["ATOM 1 N GLU A 600 2".toList]
     out.take wjF1.length = wjF1 ∧
     out.drop wjF1.length = (List.zipWith renumberFile (joinOffsets files) [wjF2]).flatten ∧
     ∀ l ∈ out.drop wjF1.length, isAtomLine l = true) :=
  join_first_file_survives wjF1 [wjF2] (wjF1 ++ ["ATOM 1 N GLU A 600 2".toList]) (by decide)

/-! ## Claim C10: copied atom rows are single-space token joins -/

/-- Claim C10: every atom row copied from a subsequent input file is
written as the row's whitespace-delimited tokens joined by single
spaces, with only the final token replaced by the offset model number;
the non-final tokens are kept in order and value (the original column
spacing is not reproduced, only single spaces). -/
theorem join_renumber_tokens (f1 : List Line) (rest : List (List Line)) (out : List Line)
    (h : joinSegments (f1 :: rest) = .ok out) :
    out = f1 ++ (List.zipWith
        (fun off f => (f.filter isAtomLine).map
          (fun l => writeAtomLine l ((modelNum? l).getD 0 + off)))
        (joinOffsets (f1 :: rest)) rest).flatten ∧
    (∀ f ∈ rest, ∀ l ∈ f, isAtomLine l = true → (modelNum? l).isSome) ∧
    (∀ (l : Line) (n : Int), isAtomLine l = true → (modelNum? l).isSome →
      (lineWords l).dropLast ≠ [] ∧
      writeAtomLine l n = joinSpace ((lineWords l).dropLast ++ [strOfInt n])) := by
  obtain ⟨hout, hps⟩ := joinSegments_ok_decomp f1 rest out h
  refine ⟨hout, hps, ?_⟩
  intro l n ha hm
  obtain ⟨w, y, ys, hws⟩ := lineWords_atom_parse l ha hm
  have hdrop : (lineWords l).dropLast
      = ('A' :: 'T' :: 'O' :: 'M' :: w) :: (y :: ys).dropLast := by
    rw [hws]
    rfl
  have hne : (lineWords l).dropLast ≠ [] := by
    rw [hdrop]
    simp
  refine ⟨hne, ?_⟩
  rw [joinSpace_append_singleton ((lineWords l).dropLast) (strOfInt n) hne]
  rfl

/-- Witness for C10 on two concrete files. -/
theorem join_renumber_tokens_witness :
    (let files := [wjF1, wjF2]
     let out := wjF1 ++ ["ATOM 1 N GLU A 600 2".toList]
     out = wjF1 ++ (List.zipWith
        (fun off f => (f.filter isAtomLine).map
          (fun l => writeAtomLine l ((modelNum? l).getD 0 + off)))
        (joinOffsets files) [wjF2]).flatten ∧
     (∀ f ∈ [wjF2], ∀ l ∈ f, isAtomLine l = true → (modelNum? l).isSome) ∧
     (∀ (l : Line) (n : Int), isAtomLine l = true → (modelNum? l).isSome →
       (lineWords l).dropLast ≠ [] ∧
       writeAtomLine l n = joinSpace ((lineWords l).dropLast ++ [strOfInt n]))) :=
  join_renumber_tokens wjF1 [wjF2] (wjF1 ++ ["ATOM 1 N GLU A 600 2".toList]) (by decide)

/-! ## Claim C1: the cumulative offset -/

/-- A well-formed multi-model input file in the sense the consolidator's
NOTE assumes: it has at least one atom row, every atom row's trailing
token parses, all model numbers are positive, and the last atom row
carries the file's maximum model number. -/
def goodFile (f : List Line) : Prop :=
  f.filter isAtomLine ≠ [] ∧
  ∀ l ∈ f, isAtomLine l = true →
    (modelNum? l).isSome ∧ 1 ≤ (modelNum? l).getD 0 ∧ (modelNum? l).getD 0 ≤ lastAtomNum f

instance (f : List Line) : Decidable (goodFile f) := by
  unfold goodFile
  infer_instance

instance (b1 b2 : List Int) : Decidable (blockLt b1 b2) :=
  decidable_of_iff (∀ a ∈ b1, ∀ b ∈ b2, a < b) Iff.rfl

theorem lastAtomNum_spec (f : List Line) (hne : f.filter isAtomLine ≠ []) :
    ∃ l, (f.filter isAtomLine).getLast? = some l ∧ l ∈ f ∧ isAtomLine l = true ∧
      lastAtomNum f = (modelNum? l).getD 0 := by
  cases hL : (f.filter isAtomLine).getLast? with
  | none => exact absurd (List.getLast?_eq_none_iff.mp hL) hne
  | some l =>
    have hlf := List.mem_of_getLast?_eq_some hL
    obtain ⟨hmem, hatom⟩ := List.mem_filter.mp hlf
    refine ⟨l, rfl, hmem, hatom, ?_⟩
    unfold lastAtomNum
    rw [hL]
    rfl

theorem lastAtomNum_pos (f : List Line) (hf : goodFile f) : 1 ≤ lastAtomNum f := by
  obtain ⟨l, hL, hmem, hatom, heq⟩ := lastAtomNum_spec f hf.1
  obtain ⟨_, h1, _⟩ := hf.2 l hmem hatom
  rw [heq]
  exact h1

theorem offsGo_eq_simpleOffs :
    ∀ (fs : List (List Line)) (p : Int) (mc : Option Int),
      (∀ f ∈ fs, goodFile f) →
      offsGo p mc fs = simpleOffs p fs := by
  intro fs
  induction fs with
  | nil => intro p mc _; rfl
  | cons f fs ih =>
    intro p mc h
    have hgf := h f (List.mem_cons_self f fs)
    obtain ⟨l, hL, _, _, heq⟩ := lastAtomNum_spec f hgf.1
    have hmc : mcNext f mc = modelNum? l := by
      unfold mcNext
      rw [hL]
    rw [offsGo, simpleOffs, hmc, heq]
    congr 1
    exact ih ((modelNum? l).getD 0 + p) (modelNum? l)
      (fun f' hf' => h f' (List.mem_cons_of_mem f hf'))

theorem blockNums_mem_bounds (off : Int) (f : List Line) (hf : goodFile f) :
    ∀ x ∈ blockNums off f, off < x ∧ x ≤ lastAtomNum f + off := by
  intro x hx
  unfold blockNums at hx
  obtain ⟨l, hl, rfl⟩ := List.mem_map.mp hx
  obtain ⟨hmem, hatom⟩ := List.mem_filter.mp hl
  obtain ⟨_, h1, h2⟩ := hf.2 l hmem hatom
  omega

theorem zip_blocks_mono :
    ∀ (fs : List (List Line)) (p : Int),
      (∀ f ∈ fs, goodFile f) →
      (∀ x ∈ (List.zipWith blockNums (simpleOffs p fs) fs).flatten, p < x) ∧
      List.Pairwise blockLt (List.zipWith blockNums (simpleOffs p fs) fs) := by
  intro fs
  induction fs with
  | nil => intro p _; simp
  | cons f fs ih =>
    intro p h
    have hgf := h f (List.mem_cons_self f fs)
    have hrest := fun f' hf' => h f' (List.mem_cons_of_mem f hf')
    obtain ⟨ihall, ihpw⟩ := ih (lastAtomNum f + p) hrest
    have hpos := lastAtomNum_pos f hgf
    rw [simpleOffs, List.zipWith_cons_cons]
    constructor
    · intro x hx
      rw [List.flatten_cons] at hx
      rcases List.mem_append.mp hx with hx | hx
      · exact (blockNums_mem_bounds p f hgf x hx).1
      · have := ihall x hx
        omega
    · rw [List.pairwise_cons]
      refine ⟨?_, ihpw⟩
      intro blk hblk
      show ∀ a ∈ blockNums p f, ∀ b ∈ blk, a < b
      intro a ha b hb
      have hab : a ≤ lastAtomNum f + p := (blockNums_mem_bounds p f hgf a ha).2
      have hbgt : lastAtomNum f + p < b := ihall b (List.mem_flatten.mpr ⟨blk, hblk, hb⟩)
      omega

/-- Claim C1, amended: the offset after the first file is the number
parsed from its last line (assumed to be its last atom row), every atom
row copied from a subsequent file gets its original value plus the
current offset, and after each subsequent file the offset grows by the
model number of that file's **last** atom row (not its maximum). When
every subsequent file is well formed in the sense of `goodFile` (its
last atom row carries its maximum model number, all numbers positive)
and the first file's atom numbers are bounded by its last line's number,
the output model numbers are strictly increasing across source files. -/
theorem join_cumulative_offset_last (f1 : List Line) (rest : List (List Line)) (out : List Line)
    (p : Int)
    (hok : joinSegments (f1 :: rest) = .ok out)
    (hp : f1.getLast?.bind modelNum? = some p)
    (hf1 : ∀ l ∈ f1, isAtomLine l = true → (modelNum? l).isSome ∧ (modelNum? l).getD 0 ≤ p)
    (hrest : ∀ f ∈ rest, goodFile f) :
    joinOffsets (f1 :: rest) = simpleOffs p rest ∧
    out = f1 ++ (List.zipWith renumberFile (simpleOffs p rest) rest).flatten ∧
    List.Pairwise blockLt (numberBlocks p f1 rest) := by
  have hoffs : joinOffsets (f1 :: rest) = simpleOffs p rest := by
    simp only [joinOffsets, hp, Option.getD_some]
    exact offsGo_eq_simpleOffs rest p none hrest
  obtain ⟨hout, _⟩ := joinSegments_ok_decomp f1 rest out hok
  refine ⟨hoffs, by rw [hout, hoffs], ?_⟩
  unfold numberBlocks
  rw [List.pairwise_cons]
  obtain ⟨hall, hpw⟩ := zip_blocks_mono rest p hrest
  refine ⟨?_, hpw⟩
  intro blk hblk
  show ∀ a ∈ firstBlockNums f1, ∀ b ∈ blk, a < b
  intro a ha b hb
  unfold firstBlockNums at ha
  obtain ⟨l, hl, rfl⟩ := List.mem_map.mp ha
  obtain ⟨hmem, hatom⟩ := List.mem_filter.mp hl
  have hle := (hf1 l hmem hatom).2
  have hbgt : p < b := hall b (List.mem_flatten.mpr ⟨blk, hblk, hb⟩)
  omega

/-- First file of the C1 counterexample: one model, number 1. -/
def cexFile1 : List Line := ["ATOM 1 N GLU A 600 1".toList]

/-- Second file of the C1 counterexample: two atom rows whose model
numbers are out of order, so the last (1) is not the maximum (2). -/
def cexFile2 : List Line :=
  ["ATOM 1 N GLU A 600 2".toList, "ATOM 2 C GLU A 600 1".toList]

/-- Third file of the C1 counterexample: one model, number 1. -/
def cexFile3 : List Line := ["ATOM 1 N GLU A 600 1".toList]

def cexFiles : List (List Line) := [cexFile1, cexFile2, cexFile3]

/-- Counterexample to C1 as stated: on `cexFiles` the code advances the
offset by the *last* atom row's model number (1), not the maximum (2),
so the third file's row gets model number 3 where the spec's
cumulative-maximum rule (`specJoinSegments`) gives 4; the output model
numbers (1; 3, 2; 3) are not strictly increasing across source files. -/
theorem join_offset_max_counterexample :
    joinSegments cexFiles =
      .ok ["ATOM 1 N GLU A 600 1".toList, "ATOM 1 N GLU A 600 3".toList,
           "ATOM 2 C GLU A 600 2".toList, "ATOM 1 N GLU A 600 3".toList] ∧
    specJoinSegments cexFiles =
      .ok ["ATOM 1 N GLU A 600 1".toList, "ATOM 1 N GLU A 600 3".toList,
           "ATOM 2 C GLU A 600 2".toList, "ATOM 1 N GLU A 600 4".toList] ∧
    joinSegments cexFiles ≠ specJoinSegments cexFiles ∧
    ¬ List.Pairwise blockLt (numberBlocks 1 cexFile1 [cexFile2, cexFile3]) := by
  refine ⟨by decide, by decide, by decide, by decide⟩

/-- Files of the C1 witness: two single-model files with model number 1. -/
def wc1File1 : List Line := ["ATOM 1 N GLU A 600 1".toList]

def wc1File2 : List Line := ["ATOM 2 C GLU A 600 1".toList]

/-- Witness for the amended C1 on the spec's concrete scenario: merging
two single-model files with model number 1 produces model numbers 1 and
2 in file order. -/
theorem join_cumulative_offset_last_witness :
    joinOffsets [wc1File1, wc1File2] = simpleOffs 1 [wc1File2] ∧
    wc1File1 ++ ["ATOM 2 C GLU A 600 2".toList] =
      wc1File1 ++ (List.zipWith renumberFile (simpleOffs 1 [wc1File2]) [wc1File2]).flatten ∧
    List.Pairwise blockLt (numberBlocks 1 wc1File1 [wc1File2]) :=
  join_cumulative_offset_last wc1File1 [wc1File2]
    (wc1File1 ++ ["ATOM 2 C GLU A 600 2".toList]) 1
    (by decide) (by decide) (by decide) (by decide)

end LoopBuilder
